import Mathlib

/-!
Verification development for the content-processing and retrieval pipeline of
the synergyde-mcp repository: the topic chunker (`chunkTopic`, `chunkBodyText`,
`limitChunks` from `src/lib/parser/chunker.ts`) and the in-memory relevance
search index (`SearchIndex` from `src/lib/search/index.ts`).

Strings are modelled as `List Char`. JavaScript regular-expression operations
used by the source (`/^(#{1,6})\s+(.+)$/gm`, `/\n\s*\n/`, `/(?<=[.!?])\s+/`,
the tokenizer replacements) are translated into executable scanning functions
with the same semantics.
-/

set_option maxRecDepth 4096

namespace SynergyMcp

abbrev Str := List Char

/-- JavaScript `\s` character class (WhiteSpace plus LineTerminator). -/
def isWs (c : Char) : Bool :=
  c = ' ' || c = '\t' || c = '\n' || c = '\r' ||
  c.val = 11 || c.val = 12 || c.val = 0xa0 || c.val = 0x1680 ||
  (0x2000 ≤ c.val && c.val ≤ 0x200a) || c.val = 0x2028 || c.val = 0x2029 ||
  c.val = 0x202f || c.val = 0x205f || c.val = 0x3000 || c.val = 0xfeff

/-- JavaScript line terminators (`.` in a regex matches anything but these;
multiline `^`/`$` anchor around these). -/
def isLineTerm (c : Char) : Bool :=
  c = '\n' || c = '\r' || c.val = 0x2028 || c.val = 0x2029

/-- `String.prototype.trim`. -/
def trim (s : Str) : Str :=
  ((s.dropWhile isWs).reverse.dropWhile isWs).reverse

/-- `estimateTokens`: `Math.ceil(text.length / 4)`. -/
def estimateTokens (s : Str) : Nat := (s.length + 3) / 4

/-- `a.substring(x, y)` (JavaScript swaps the endpoints when `x > y`). -/
def jsSubstring (s : Str) (a b : Nat) : Str :=
  if a ≤ b then (s.take b).drop a else (s.take a).drop b

/-- First occurrence of `c` in `s` at position ≥ `start`
(`s.indexOf(c, start)`). -/
def indexOfFrom (s : Str) (c : Char) (start : Nat) : Option Nat :=
  match (s.drop start).findIdx? (· = c) with
  | some k => some (start + k)
  | none => none

/-- Largest index of `c` in `l`, if any. -/
def lastIdxOf (c : Char) (l : Str) : Option Nat :=
  match l.reverse.findIdx? (· = c) with
  | some k => some (l.length - 1 - k)
  | none => none

/-! ## Data model (`src/types.ts`) -/

inductive DocSource
  | online
  | localSource
  | hybrid
deriving DecidableEq, Repr

inductive LinkType
  | prev
  | next
  | parent
  | related
deriving DecidableEq, Repr

structure TopicLink where
  linkType : LinkType
  target_topic_id : Str
  title : Option Str
  url : Option Str
deriving DecidableEq, Repr

structure TopicChunk where
  topic_id : Str
  chunk_index : Nat
  text : Str
  token_count : Option Nat
deriving DecidableEq, Repr

structure Topic where
  id : Str
  version : Str
  title : Str
  sectionName : Str
  path : List Str
  summary : Str
  body_chunks : List TopicChunk
  links : List TopicLink
  url : Str
  source : DocSource
deriving DecidableEq, Repr

structure SearchResult where
  topic_id : Str
  title : Str
  sectionName : Str
  version : Str
  url : Str
  summary : Str
  source : DocSource
  score : Nat
deriving DecidableEq, Repr

/-! ## Heading scan: the exec-loop over `/^(#{1,6})\s+(.+)$/gm` -/

structure HeadingMatch where
  index : Nat
  level : Nat
  title : Str
deriving DecidableEq, Repr

def countHashes (s : Str) : Nat := (s.takeWhile (· = '#')).length

def wsRunLen (s : Str) : Nat := (s.takeWhile isWs).length

def takeNonLT (s : Str) : Str := s.takeWhile (fun c => !isLineTerm c)

/-- Largest `t` with `1 ≤ t < w` such that `ws[t]` is not a line terminator:
the backtracking position for `\s+` when the greedy match ran into the end of
the input. -/
def lastNonLTBefore (ws : Str) (w : Nat) : Option Nat :=
  (List.range w).reverse.find? fun t =>
    decide (1 ≤ t) && !isLineTerm (ws.getD t ' ')

/-- Try to match `(#{1,6})\s+(.+)$` at position `p` of `s` (which the caller
guarantees to be a multiline `^` anchor). Returns the match data and the end
position of the whole match. The title is returned raw (untrimmed). -/
def matchHeadingAt (s : Str) (p : Nat) : Option (HeadingMatch × Nat) :=
  let r := countHashes (s.drop p)
  if 1 ≤ r ∧ r ≤ 6 then
    let rest1 := s.drop (p + r)
    let w := wsRunLen rest1
    if w = 0 then none
    else if p + r + w < s.length then
      let titleRaw := takeNonLT (s.drop (p + r + w))
      some ({ index := p, level := r, title := titleRaw }, p + r + w + titleRaw.length)
    else
      match lastNonLTBefore (rest1.take w) w with
      | some t =>
        let titleRaw := takeNonLT (s.drop (p + r + t))
        some ({ index := p, level := r, title := titleRaw }, p + r + t + titleRaw.length)
      | none => none
  else none

/-- Is position `i` a multiline `^` anchor of `s`? -/
def isAnchor (s : Str) (i : Nat) : Bool :=
  i = 0 ||
    (match s.get? (i - 1) with
     | some c => isLineTerm c
     | none => false)

def findHeadingsAux (s : Str) : Nat → Nat → List HeadingMatch
  | 0, _ => []
  | fuel + 1, i =>
    if s.length ≤ i then []
    else if isAnchor s i then
      match matchHeadingAt s i with
      | some (m, e) => { m with title := trim m.title } :: findHeadingsAux s fuel e
      | none => findHeadingsAux s fuel (i + 1)
    else findHeadingsAux s fuel (i + 1)

/-- All matches of the global multiline heading regex, with `match[2].trim()`
as title, in order of occurrence. -/
def findHeadings (s : Str) : List HeadingMatch := findHeadingsAux s (s.length + 1) 0

/-! ## Paragraph split: `text.split(/\n\s*\n/)` -/

def splitParaAux : Nat → Str → Str → List Str
  | 0, _, curRev => [curRev.reverse]
  | _ + 1, [], curRev => [curRev.reverse]
  | fuel + 1, c :: rest, curRev =>
    if c = '\n' then
      let run := (c :: rest).takeWhile isWs
      match lastIdxOf '\n' run with
      | some k =>
        if 1 ≤ k then
          curRev.reverse :: splitParaAux fuel ((c :: rest).drop (k + 1)) []
        else splitParaAux fuel rest (c :: curRev)
      | none => splitParaAux fuel rest (c :: curRev)
    else splitParaAux fuel rest (c :: curRev)

def splitPara (s : Str) : List Str := splitParaAux (s.length + 1) s []

/-! ## Sentence split: `text.split(/(?<=[.!?])\s+/)` -/

def isSentEnd (c : Char) : Bool := c = '.' || c = '!' || c = '?'

def sentSplitAux : Nat → Str → Option Char → Str → List Str
  | 0, _, _, curRev => [curRev.reverse]
  | _ + 1, [], _, curRev => [curRev.reverse]
  | fuel + 1, c :: rest, prevc, curRev =>
    if isWs c && (match prevc with | some pc => isSentEnd pc | none => false) then
      let run := (c :: rest).takeWhile isWs
      curRev.reverse :: sentSplitAux fuel ((c :: rest).drop run.length) none []
    else sentSplitAux fuel rest (some c) (c :: curRev)

def sentSplit (s : Str) : List Str := sentSplitAux (s.length + 1) s none []

/-! ## Chunker (`src/lib/parser/chunker.ts`) -/

/-- Join a list of strings with a separator (used to model
`Array.prototype.join`). -/
def joinSep (sep : Str) : List Str → Str
  | [] => []
  | [x] => x
  | x :: xs => x ++ sep ++ joinSep sep xs

structure TopicSection where
  level : Nat
  title : Str
  content : Str
deriving DecidableEq, Repr

/-- The rendered text of a section:
`` `#${"#".repeat(level-1)} ${title}\n\n${content}` `` for a heading section,
the raw content for the level-0 (introductory) section. -/
def renderSection (sec : TopicSection) : Str :=
  if sec.level = 0 then sec.content
  else '#' :: (List.replicate (sec.level - 1) '#' ++ ' ' :: sec.title ++ '\n' :: '\n' :: sec.content)

/-- The heading line re-attached in front of every sub-chunk when a large
section is split by paragraphs: `` `#${"#".repeat(level-1)} ${title}\n\n` ``. -/
def sectionHeading (sec : TopicSection) : Str :=
  '#' :: (List.replicate (sec.level - 1) '#' ++ ' ' :: sec.title ++ ['\n', '\n'])

/-- Sections between consecutive heading matches (lines 245-264 of the
chunker): heading line found via `indexOf("\n", startIndex)`, content runs to
the next heading's index (or end of text) and is trimmed. -/
def sectionBodyList (bodyText : Str) : List HeadingMatch → List TopicSection
  | [] => []
  | h :: rest =>
    let endIndex := match rest with | h2 :: _ => h2.index | [] => bodyText.length
    let headingLine := match indexOfFrom bodyText '\n' h.index with
      | some e => jsSubstring bodyText h.index (e + 1)
      | none => bodyText.drop h.index
    let contentStart := h.index + headingLine.length
    let content := trim (jsSubstring bodyText contentStart endIndex)
    ⟨h.level, h.title, content⟩ :: sectionBodyList bodyText rest

/-- All sections of a body: optional level-0 introductory section followed by
one section per heading match. -/
def sectionsFromMatches (bodyText : Str) (hm : List HeadingMatch) : List TopicSection :=
  let intro : List TopicSection :=
    match hm with
    | [] => []
    | h0 :: _ =>
      if 0 < h0.index then
        let introText := trim (bodyText.take h0.index)
        if introText = [] then [] else [⟨0, [], introText⟩]
      else []
  intro ++ sectionBodyList bodyText hm

/-- State of the imperative packing loops: emitted chunks, the accumulating
`currentChunk`, and the running `chunkIndex`. -/
structure PackState where
  chunks : List TopicChunk
  cur : Str
  idx : Nat
deriving Repr

/-- Emit `currentChunk` as a chunk (trimmed text, estimated token count). -/
def emit (topicId : Str) (st : PackState) : TopicChunk :=
  ⟨topicId, st.idx, trim st.cur, some (estimateTokens st.cur)⟩

/-- One iteration of the paragraph-packing loop (chunker lines 205-218). -/
def packParasStep (topicId : Str) (B : Nat) (st : PackState) (para : Str) : PackState :=
  if B < estimateTokens st.cur + estimateTokens para ∧ st.cur ≠ [] then
    { chunks := st.chunks ++ [emit topicId st], cur := para, idx := st.idx + 1 }
  else
    { st with cur := if st.cur ≠ [] then st.cur ++ '\n' :: '\n' :: para else para }

/-- The trailing `if (currentChunk.trim()) push` of every packing loop. -/
def finishPack (topicId : Str) (st : PackState) : List TopicChunk :=
  if trim st.cur ≠ [] then st.chunks ++ [emit topicId st] else st.chunks

/-- The repeated `if (currentChunk) { chunks.push(...); currentChunk = ""; }`
idiom that precedes every forced split. -/
def flushCur (topicId : Str) (st : PackState) : PackState :=
  if st.cur ≠ [] then
    { chunks := st.chunks ++ [emit topicId st], cur := [], idx := st.idx + 1 }
  else st

/-- One iteration of the paragraph loop inside the large-section split
(chunker lines 295-311); the state is `(chunks, sectionChunk, chunkIndex)`. -/
def splitSecStep (topicId : Str) (B : Nat) (sec : TopicSection)
    (acc : List TopicChunk × Str × Nat) (para : Str) : List TopicChunk × Str × Nat :=
  if B < estimateTokens acc.2.1 + estimateTokens para ∧
      (if sec.level = 0 then 10 else sec.title.length + 10) < (trim acc.2.1).length then
    (acc.1 ++ [⟨topicId, acc.2.2, trim acc.2.1, some (estimateTokens acc.2.1)⟩],
     (if sec.level = 0 then para else sectionHeading sec ++ para), acc.2.2 + 1)
  else (acc.1, acc.2.1 ++ para ++ ['\n', '\n'], acc.2.2)

/-- The `if (sectionChunk.trim().length > minLength) currentChunk =
sectionChunk` epilogue of the large-section split (lines 313-315);
`currentChunk` is `""` at that point. -/
def secTupleToState (sec : TopicSection) (acc : List TopicChunk × Str × Nat) : PackState :=
  { chunks := acc.1, idx := acc.2.2,
    cur := if (if sec.level = 0 then 10 else sec.title.length + 10) < (trim acc.2.1).length
      then acc.2.1 else [] }

/-- Splitting one over-budget section by paragraphs (chunker lines 277-315);
on entry `currentChunk` has already been flushed to `""`. -/
def splitLargeSection (topicId : Str) (B : Nat) (sec : TopicSection)
    (st : PackState) : PackState :=
  secTupleToState sec
    (((splitPara sec.content).filter (fun p => trim p ≠ [])).foldl
      (splitSecStep topicId B sec)
      (st.chunks, (if sec.level = 0 then [] else sectionHeading sec), st.idx))

/-- One iteration of the section-packing loop (chunker lines 270-330). -/
def packSectionsStep (topicId : Str) (B : Nat) (st : PackState)
    (sec : TopicSection) : PackState :=
  if B < estimateTokens (renderSection sec) then
    splitLargeSection topicId B sec (flushCur topicId st)
  else if B < estimateTokens st.cur + estimateTokens (renderSection sec) ∧ st.cur ≠ [] then
    { chunks := st.chunks ++ [emit topicId st], cur := renderSection sec, idx := st.idx + 1 }
  else
    { st with cur := if st.cur ≠ [] then st.cur ++ '\n' :: '\n' :: renderSection sec
        else renderSection sec }

/-- `chunkBodyText(topicId, bodyText, maxChunkSize)`. -/
def chunkBodyText (topicId : Str) (bodyText : Str) (maxChunkSize : Nat) : List TopicChunk :=
  if trim bodyText = [] then []
  else if findHeadings bodyText = [] then
    finishPack topicId (((splitPara bodyText).filter (fun p => trim p ≠ [])).foldl
      (packParasStep topicId maxChunkSize) ⟨[], [], 0⟩)
  else
    finishPack topicId ((sectionsFromMatches bodyText (findHeadings bodyText)).foldl
      (packSectionsStep topicId maxChunkSize) ⟨[], [], 0⟩)

/-- The heading-boundary decomposition of an over-budget chunk in `chunkTopic`
(lines 84-97): segments of the text between consecutive heading-match
indices. -/
def headingPartStep (s : Str) (acc : List Str × Nat) (i : Nat) : List Str × Nat :=
  if acc.2 < i then (acc.1 ++ [jsSubstring s acc.2 i], i) else (acc.1, i)

def headingPartsFold (s : Str) (idxs : List Nat) : List Str × Nat :=
  idxs.foldl (headingPartStep s) ([], 0)

def headingParts (s : Str) : List Str :=
  if (headingPartsFold s ((findHeadings s).map (·.index))).2 < s.length then
    (headingPartsFold s ((findHeadings s).map (·.index))).1 ++
      [s.drop (headingPartsFold s ((findHeadings s).map (·.index))).2]
  else (headingPartsFold s ((findHeadings s).map (·.index))).1

/-- One iteration of the sentence-packing loop in `chunkTopic`
(lines 129-142); the state is `(chunks, sentenceChunk, chunkIndex)`. -/
def rechunkSentenceStep (topicId : Str) (B : Nat)
    (acc : List TopicChunk × Str × Nat) (sentence : Str) : List TopicChunk × Str × Nat :=
  if B < estimateTokens acc.2.1 + estimateTokens sentence ∧ acc.2.1 ≠ [] then
    (acc.1 ++ [⟨topicId, acc.2.2, trim acc.2.1, some (estimateTokens acc.2.1)⟩],
     sentence, acc.2.2 + 1)
  else (acc.1, (if acc.2.1 ≠ [] then acc.2.1 ++ ' ' :: sentence else sentence), acc.2.2)

/-- The `if (sentenceChunk) currentChunk = sentenceChunk` epilogue of the
sentence loop (lines 143-145); `cur0` is the (already flushed, hence empty)
`currentChunk` at that point. -/
def sentTupleToState (cur0 : Str) (acc : List TopicChunk × Str × Nat) : PackState :=
  { chunks := acc.1, idx := acc.2.2, cur := if acc.2.1 ≠ [] then acc.2.1 else cur0 }

/-- One iteration over the heading parts of an over-budget chunk in
`chunkTopic` (lines 100-147): a part still over budget is split by sentences
directly (there is no paragraph stage in `chunkTopic`). -/
def rechunkPartStep (topicId : Str) (B : Nat) (st : PackState) (part : Str) : PackState :=
  if estimateTokens part ≤ B then
    if st.cur ≠ [] ∧ B < estimateTokens st.cur + estimateTokens part then
      { chunks := st.chunks ++ [emit topicId st], cur := part, idx := st.idx + 1 }
    else
      { st with cur := if st.cur ≠ [] then st.cur ++ '\n' :: '\n' :: part else part }
  else
    sentTupleToState (flushCur topicId st).cur
      ((sentSplit part).foldl (rechunkSentenceStep topicId B)
        ((flushCur topicId st).chunks, [], (flushCur topicId st).idx))

/-- One iteration over the existing chunks in `chunkTopic` (lines 52-149). -/
def rechunkChunkStep (topicId : Str) (B : Nat) (st : PackState) (c : TopicChunk) : PackState :=
  if estimateTokens c.text ≤ B then
    if st.cur ≠ [] ∧ B < estimateTokens st.cur + estimateTokens c.text then
      { chunks := st.chunks ++ [emit topicId st], cur := c.text, idx := st.idx + 1 }
    else
      { st with cur := if st.cur ≠ [] then st.cur ++ '\n' :: '\n' :: c.text else c.text }
  else (headingParts c.text).foldl (rechunkPartStep topicId B) (flushCur topicId st)

/-- `chunkTopic(topic, maxChunkSize, bodyText?)`. -/
def chunkTopic (topic : Topic) (maxChunkSize : Nat) (bodyText : Option Str) : List TopicChunk :=
  match bodyText with
  | some b => chunkBodyText topic.id b maxChunkSize
  | none =>
    if topic.body_chunks = [] then []
    else
      finishPack topic.id
        (topic.body_chunks.foldl (rechunkChunkStep topic.id maxChunkSize) ⟨[], [], 0⟩)

/-- `chunk.token_count || estimateTokens(chunk.text)` (note `0` is falsy). -/
def effTokens (c : TopicChunk) : Nat :=
  match c.token_count with
  | some n => if n = 0 then estimateTokens c.text else n
  | none => estimateTokens c.text

def limitChunksAux (maxTokens : Nat) : List TopicChunk → Nat → List TopicChunk
  | [], _ => []
  | c :: rest, total =>
    if maxTokens < total + effTokens c then []
    else c :: limitChunksAux maxTokens rest (total + effTokens c)

/-- `limitChunks(chunks, maxTokens)`. -/
def limitChunks (chunks : List TopicChunk) (maxTokens : Nat) : List TopicChunk :=
  limitChunksAux maxTokens chunks 0

/-! ## Search index (`src/lib/search/index.ts`) -/

/-- JavaScript `\w` (ASCII word characters). -/
def isWordChar (c : Char) : Bool :=
  ('a' ≤ c && c ≤ 'z') || ('A' ≤ c && c ≤ 'Z') || ('0' ≤ c && c ≤ '9') || c = '_'

def startsWith : Str → Str → Bool
  | [], _ => true
  | _ :: _, [] => false
  | p :: ps, c :: cs => p = c && startsWith ps cs

/-- Global replacement of a literal (non-empty) pattern, left to right,
non-overlapping, the replacement text not rescanned. -/
def replaceAllAux (pat rep : Str) : Nat → Str → Str
  | 0, s => s
  | _ + 1, [] => []
  | fuel + 1, c :: rest =>
    if startsWith pat (c :: rest) ∧ pat ≠ [] then
      rep ++ replaceAllAux pat rep fuel ((c :: rest).drop pat.length)
    else c :: replaceAllAux pat rep fuel rest

def replaceAll (pat rep s : Str) : Str := replaceAllAux pat rep (s.length + 1) s

/-- Maximal non-whitespace runs: `split(/\s+/)` followed by dropping empty
strings. -/
def splitWsTokensAux : Nat → Str → List Str
  | 0, _ => []
  | _ + 1, [] => []
  | fuel + 1, c :: rest =>
    if isWs c then splitWsTokensAux fuel rest
    else
      let tok := (c :: rest).takeWhile (fun x => !isWs x)
      tok :: splitWsTokensAux fuel ((c :: rest).drop tok.length)

def splitWsTokens (s : Str) : List Str := splitWsTokensAux (s.length + 1) s

namespace SearchIndex

/-- `SearchIndex.tokenize`. -/
def tokenize (text : Str) : List Str :=
  let lower := text.map Char.toLower
  let n1 := replaceAll "c++".data "c-plus-plus".data lower
  let n2 := replaceAll "c#".data "c-sharp".data n1
  let n3 := replaceAll ".net".data "dot-net".data n2
  let n4 := n3.map (fun c => if c = '/' then ' ' else c)
  let n5 := n4.map (fun c => if c = '.' then ' ' else c)
  let n6 := n5.map (fun c => if !isWordChar c && !isWs c && c ≠ '-' then ' ' else c)
  splitWsTokens n6

structure IndexEntry where
  topic : Topic
  titleTokens : List Str
  summaryTokens : List Str
  bodyTokens : List Str
deriving DecidableEq, Repr

/-- The index's `Map<string, IndexEntry>`: an insertion-ordered association
list. `values()` is `map Prod.snd`. -/
abbrev IndexState := List (Str × IndexEntry)

/-- `Map.prototype.set`: replace in place if the key exists, else append. -/
def mapSet (m : IndexState) (k : Str) (v : IndexEntry) : IndexState :=
  if m.any (fun p => p.1 = k) then
    m.map (fun p => if p.1 = k then (k, v) else p)
  else m ++ [(k, v)]

/-- The entry built for a topic by `addTopic`. -/
def entryOf (t : Topic) : IndexEntry :=
  { topic := t,
    titleTokens := tokenize t.title,
    summaryTokens := tokenize t.summary,
    bodyTokens := tokenize (joinSep " ".data (t.body_chunks.map (·.text))) }

/-- The composite key `` `${topic.version}:${topic.id}` ``. -/
def indexKey (t : Topic) : Str := t.version ++ ':' :: t.id

/-- `SearchIndex.addTopic`. -/
def addTopic (t : Topic) (st : IndexState) : IndexState :=
  mapSet st (indexKey t) (entryOf t)

/-- `SearchIndex.clear`. -/
def clear (_ : IndexState) : IndexState := []

/-- `SearchIndex.countToken`. -/
def countToken (tokens : List Str) (token : Str) : Nat :=
  (tokens.filter (fun t => t = token)).length

/-- `SearchIndex.calculateScore`: three weighted term-frequency passes. -/
def calculateScore (queryTokens : List Str) (e : IndexEntry) : Nat :=
  (queryTokens.map (fun t => countToken e.titleTokens t * 3)).sum +
    (queryTokens.map (fun t => countToken e.summaryTokens t * 2)).sum +
    (queryTokens.map (fun t => countToken e.bodyTokens t * 1)).sum

/-- The filter steps of the search loop: `if (version && entry.topic.version
!== version) continue;` and likewise for `section`. An empty string is falsy
in JavaScript, so an empty filter value disables the filter. -/
def passesFilters (version sectionFilter : Option Str) (e : IndexEntry) : Bool :=
  (match version with
   | some v => v = [] || e.topic.version = v
   | none => true) &&
  (match sectionFilter with
   | some sec => sec = [] || e.topic.sectionName = sec
   | none => true)

/-- The `SearchResult` pushed for a scored entry. -/
def mkResult (e : IndexEntry) (score : Nat) : SearchResult :=
  { topic_id := e.topic.id, title := e.topic.title, sectionName := e.topic.sectionName,
    version := e.topic.version, url := e.topic.url, summary := e.topic.summary,
    source := e.topic.source, score := score }

/-- The comparator `(a, b) => (b.score || 0) - (a.score || 0)` as an order:
`a` precedes `b` when `b.score ≤ a.score`. -/
def srel (a b : SearchResult) : Prop := b.score ≤ a.score

instance : DecidableRel srel := fun a b => Nat.decLe b.score a.score

/-- `results.sort((a, b) => (b.score || 0) - (a.score || 0))`: JavaScript's
sort is stable (ES2019), hence extensionally an insertion sort under the
comparator's total preorder. -/
def sortResults (l : List SearchResult) : List SearchResult :=
  List.insertionSort srel l

/-- The unsorted result list accumulated by the scoring loop, in entry
iteration order. -/
def scoredResults (queryTokens : List Str) (version sectionFilter : Option Str)
    (st : IndexState) : List SearchResult :=
  (st.map Prod.snd).filterMap fun e =>
    if passesFilters version sectionFilter e then
      let score := calculateScore queryTokens e
      if 0 < score then some (mkResult e score) else none
    else none

/-- `SearchIndex.search`, in state-passing form: the method only reads
`this.index`, so the state is returned alongside the results. -/
def searchM (query : Str) (version sectionFilter : Option Str) (limit : Option Int)
    (st : IndexState) : List SearchResult × IndexState :=
  let normalizedQuery := trim query
  if normalizedQuery = [] then ([], st)
  else
    let queryTokens := tokenize normalizedQuery
    if queryTokens = [] then ([], st)
    else
      let sorted := sortResults (scoredResults queryTokens version sectionFilter st)
      match limit with
      | some l =>
        let clamped := max 0 l
        (if clamped = 0 then [] else sorted.take clamped.toNat, st)
      | none => (sorted, st)

/-- The result list of `SearchIndex.search`. -/
def search (query : Str) (version sectionFilter : Option Str) (limit : Option Int)
    (st : IndexState) : List SearchResult :=
  (searchM query version sectionFilter limit st).1

end SearchIndex

/-! ## General helper lemmas -/

theorem foldl_inv {α σ : Type _} (f : σ → α → σ) (P : σ → Prop) (l : List α)
    (h : ∀ s a, a ∈ l → P s → P (f s a)) : ∀ s, P s → P (l.foldl f s) := by
  induction l with
  | nil => intro s hs; exact hs
  | cons a t ih =>
    intro s hs
    exact ih (fun s b hb => h s b (List.mem_cons_of_mem _ hb)) _
      (h s a (List.mem_cons_self _ _) hs)

/-- The key packing estimate: appending a unit with a two-character separator
costs at most one token beyond the sum of the two estimates. -/
theorem est_append_sep (a b : Str) :
    estimateTokens (a ++ '\n' :: '\n' :: b) ≤ estimateTokens a + estimateTokens b + 1 := by
  simp only [estimateTokens, List.length_append, List.length_cons]
  omega

theorem trim_nil : trim [] = [] := rfl

theorem cur_ne_nil_of_trim {s : Str} (h : trim s ≠ []) : s ≠ [] := by
  intro h0; exact h (h0 ▸ trim_nil)

/-! ## Claim C5: `limitChunks` returns the longest in-budget prefix -/

theorem limitChunksAux_is_take (C : Nat) :
    ∀ (l : List TopicChunk) (t : Nat), ∃ k, k ≤ l.length ∧ limitChunksAux C l t = l.take k := by
  intro l
  induction l with
  | nil => intro t; exact ⟨0, by simp [limitChunksAux]⟩
  | cons c rest ih =>
    intro t
    by_cases h : C < t + effTokens c
    · exact ⟨0, by simp [limitChunksAux, h]⟩
    · obtain ⟨k, hk, he⟩ := ih (t + effTokens c)
      refine ⟨k + 1, by simpa using hk, ?_⟩
      simp [limitChunksAux, h, he]

theorem limitChunksAux_sum (C : Nat) :
    ∀ (l : List TopicChunk) (t : Nat),
      t + ((limitChunksAux C l t).map effTokens).sum ≤ max t C := by
  intro l
  induction l with
  | nil => intro t; simp [limitChunksAux]
  | cons c rest ih =>
    intro t
    by_cases h : C < t + effTokens c
    · simp [limitChunksAux, h]
    · have := ih (t + effTokens c)
      simp only [limitChunksAux, if_neg h, List.map_cons, List.sum_cons]
      omega

theorem limitChunksAux_longest (C : Nat) :
    ∀ (l : List TopicChunk) (t j : Nat), j ≤ l.length →
      ((l.take j).map effTokens).sum + t ≤ C → j ≤ (limitChunksAux C l t).length := by
  intro l
  induction l with
  | nil =>
    intro t j hj _
    simp only [List.length_nil, Nat.le_zero] at hj
    simp [limitChunksAux, hj]
  | cons c rest ih =>
    intro t j hj h
    cases j with
    | zero => exact Nat.zero_le _
    | succ j =>
      simp only [List.take_succ_cons, List.map_cons, List.sum_cons] at h
      have hle : ¬ C < t + effTokens c := by omega
      simp only [limitChunksAux, if_neg hle, List.length_cons]
      have := ih (t + effTokens c) j (by simpa using hj) (by omega)
      omega

def budgetScenarioChunk (i : Nat) : TopicChunk := ⟨"topic1".data, i, [], some 300⟩

/-- C5: `limitChunks` returns the longest prefix of its input whose cumulative
effective token count stays within the ceiling: the result is a prefix, its
cumulative count is within the ceiling, every in-budget prefix is no longer
than it (so scanning stopped exactly at the first chunk that would cross the
ceiling, dropping it entirely), and the concrete scenario
`limitByBudget([300,300,300], 500)` returns exactly the first chunk. -/
theorem claim_c5_limit_prefix :
    (∀ (chunks : List TopicChunk) (C : Nat),
      ∃ k, k ≤ chunks.length ∧ limitChunks chunks C = chunks.take k) ∧
    (∀ (chunks : List TopicChunk) (C : Nat),
      ((limitChunks chunks C).map effTokens).sum ≤ C) ∧
    (∀ (chunks : List TopicChunk) (C j : Nat), j ≤ chunks.length →
      ((chunks.take j).map effTokens).sum ≤ C → j ≤ (limitChunks chunks C).length) ∧
    limitChunks [budgetScenarioChunk 0, budgetScenarioChunk 1, budgetScenarioChunk 2] 500 =
      [budgetScenarioChunk 0] := by
  refine ⟨fun chunks C => limitChunksAux_is_take C chunks 0, fun chunks C => ?_,
    fun chunks C j hj h => limitChunksAux_longest C chunks 0 j hj (by omega), by decide⟩
  have := limitChunksAux_sum C chunks 0
  simpa [limitChunks] using this

/-- Witness for C5 at a concrete input. -/
theorem claim_c5_limit_prefix_witness :
    (1 ≤ ([budgetScenarioChunk 0] : List TopicChunk).length ∧
      (([budgetScenarioChunk 0].take 1).map effTokens).sum ≤ 500) ∧
      1 ≤ (limitChunks [budgetScenarioChunk 0] 500).length :=
  ⟨⟨by decide, by decide⟩,
    claim_c5_limit_prefix.2.2.1 [budgetScenarioChunk 0] 500 1 (by decide) (by decide)⟩

/-! ## Claim C10: `search` is read-only -/

theorem searchM_state_eq (q : Str) (v s : Option Str) (l : Option Int)
    (st : SearchIndex.IndexState) : (SearchIndex.searchM q v s l st).2 = st := by
  cases l with
  | none =>
    simp only [SearchIndex.searchM]
    split
    · rfl
    · split <;> rfl
  | some x =>
    simp only [SearchIndex.searchM]
    split
    · rfl
    · split <;> rfl

/-- C10: `search` leaves the index state unchanged, so any later `addTopic`,
`clear` or `search` behaves exactly as if the search had not been
performed. -/
theorem claim_c10_search_readonly (q : Str) (v s : Option Str) (l : Option Int)
    (st : SearchIndex.IndexState) :
    (SearchIndex.searchM q v s l st).2 = st ∧
    (∀ t, SearchIndex.addTopic t (SearchIndex.searchM q v s l st).2 =
      SearchIndex.addTopic t st) ∧
    SearchIndex.clear (SearchIndex.searchM q v s l st).2 = SearchIndex.clear st ∧
    (∀ q2 v2 s2 l2, SearchIndex.searchM q2 v2 s2 l2 (SearchIndex.searchM q v s l st).2 =
      SearchIndex.searchM q2 v2 s2 l2 st) ∧
    (∀ q2 v2 s2 l2, SearchIndex.search q2 v2 s2 l2 (SearchIndex.searchM q v s l st).2 =
      SearchIndex.search q2 v2 s2 l2 st) := by
  rw [searchM_state_eq]
  exact ⟨rfl, fun _ => rfl, rfl, fun _ _ _ _ => rfl, fun _ _ _ _ => rfl⟩

/-! ## Claim C2: chunk contiguity (code bug: content can be dropped) -/

def c2FailingBody : Str := "# T\n\nAAAAAAAAAAAAAAAAAAAAAAAA\n\nhi".data

/-- C2 evaluated at the failing input: the body text ends with the short
paragraph `hi`, yet `chunkBodyText` with budget 5 emits a single chunk from
which that paragraph is entirely absent — the final section fragment is
discarded by the minimum-length guard, so concatenating the chunks cannot
reproduce the body text. -/
theorem claim_c2_contiguity_bug :
    (chunkBodyText "t".data c2FailingBody 5).length = 1 ∧
    'h' ∈ c2FailingBody ∧
    ∀ c ∈ chunkBodyText "t".data c2FailingBody 5, 'h' ∉ c.text := by decide

/-! ## Claim C1: chunk budget (corrected) -/

/-- The units that `chunkBodyText` packs greedily: blank-line paragraphs when
the body has no headings, rendered sections otherwise. -/
def bodyUnits (bodyText : Str) : List Str :=
  if findHeadings bodyText = [] then (splitPara bodyText).filter (fun p => trim p ≠ [])
  else (sectionsFromMatches bodyText (findHeadings bodyText)).map renderSection

/-- Budget invariant carried through the packing loops. -/
def BudgetOk (B : Nat) (st : PackState) : Prop :=
  (∀ c ∈ st.chunks, c.token_count.getD 0 ≤ B + 1) ∧
    (st.cur = [] ∨ estimateTokens st.cur ≤ B + 1)

theorem packParasStep_budget (topicId : Str) (B : Nat) (st : PackState) (para : Str)
    (hp : estimateTokens para ≤ B) (h : BudgetOk B st) :
    BudgetOk B (packParasStep topicId B st para) := by
  obtain ⟨h1, h2⟩ := h
  unfold packParasStep
  split
  case isTrue hcond =>
    refine ⟨?_, Or.inr (le_trans hp (Nat.le_succ _))⟩
    intro c hc
    rcases List.mem_append.1 hc with hm | hm
    · exact h1 c hm
    · rcases List.mem_singleton.1 hm with rfl
      simp only [emit, Option.getD_some]
      exact h2.resolve_left hcond.2
  case isFalse hcond =>
    refine ⟨h1, ?_⟩
    by_cases hc : st.cur = []
    · simp only [hc, ne_eq, not_true_eq_false, if_neg]
      exact Or.inr (le_trans hp (Nat.le_succ _))
    · have hsum : estimateTokens st.cur + estimateTokens para ≤ B := by
        by_contra hgt
        exact hcond ⟨by omega, hc⟩
      simp only [hc, ne_eq, not_false_eq_true, if_pos]
      exact Or.inr (le_trans (est_append_sep _ _) (by omega))

theorem packSectionsStep_budget (topicId : Str) (B : Nat) (st : PackState)
    (sec : TopicSection) (hp : estimateTokens (renderSection sec) ≤ B) (h : BudgetOk B st) :
    BudgetOk B (packSectionsStep topicId B st sec) := by
  obtain ⟨h1, h2⟩ := h
  unfold packSectionsStep
  rw [if_neg (by omega)]
  split
  case isTrue hcond =>
    refine ⟨?_, Or.inr (le_trans hp (Nat.le_succ _))⟩
    intro c hc
    rcases List.mem_append.1 hc with hm | hm
    · exact h1 c hm
    · rcases List.mem_singleton.1 hm with rfl
      simp only [emit, Option.getD_some]
      exact h2.resolve_left hcond.2
  case isFalse hcond =>
    refine ⟨h1, ?_⟩
    by_cases hc : st.cur = []
    · simp only [hc, ne_eq, not_true_eq_false, if_neg]
      exact Or.inr (le_trans hp (Nat.le_succ _))
    · have hsum : estimateTokens st.cur + estimateTokens (renderSection sec) ≤ B := by
        by_contra hgt
        exact hcond ⟨by omega, hc⟩
      simp only [hc, ne_eq, not_false_eq_true, if_pos]
      exact Or.inr (le_trans (est_append_sep _ _) (by omega))

theorem finishPack_budget (topicId : Str) (B : Nat) (st : PackState) (h : BudgetOk B st) :
    ∀ c ∈ finishPack topicId st, c.token_count.getD 0 ≤ B + 1 := by
  obtain ⟨h1, h2⟩ := h
  unfold finishPack
  split
  case isTrue ht =>
    intro c hc
    rcases List.mem_append.1 hc with hm | hm
    · exact h1 c hm
    · rcases List.mem_singleton.1 hm with rfl
      simp only [emit, Option.getD_some]
      exact h2.resolve_left (cur_ne_nil_of_trim ht)
  case isFalse => exact h1

/-- C1 (amended): provided no single packing unit — a blank-line paragraph
when the body has no headings, a heading-rendered section otherwise — exceeds
the budget `B` by itself, every chunk produced by `chunkBodyText` has
`token_count ≤ B + 1`; the extra token comes from the blank-line separator
and ceiling rounding introduced when units are joined. -/
theorem claim_c1_chunk_budget (topicId bodyText : Str) (B : Nat)
    (h : ∀ u ∈ bodyUnits bodyText, estimateTokens u ≤ B) :
    ∀ c ∈ chunkBodyText topicId bodyText B, c.token_count.getD 0 ≤ B + 1 := by
  by_cases h0 : trim bodyText = []
  · simp [chunkBodyText, h0]
  · by_cases hH : findHeadings bodyText = []
    · simp only [chunkBodyText, if_neg h0, if_pos hH]
      intro c hc
      refine finishPack_budget topicId B _ ?_ c hc
      refine foldl_inv _ (BudgetOk B) _ ?_ _ ⟨by simp, Or.inl rfl⟩
      intro s p hp hs
      refine packParasStep_budget topicId B s p ?_ hs
      have : p ∈ bodyUnits bodyText := by
        unfold bodyUnits
        rw [if_pos hH]
        exact hp
      exact h p this
    · simp only [chunkBodyText, if_neg h0, if_neg hH]
      intro c hc
      refine finishPack_budget topicId B _ ?_ c hc
      refine foldl_inv _ (BudgetOk B) _ ?_ _ ⟨by simp, Or.inl rfl⟩
      intro s sec hsec hs
      refine packSectionsStep_budget topicId B s sec ?_ hs
      have : renderSection sec ∈ bodyUnits bodyText := by
        unfold bodyUnits
        rw [if_neg hH]
        exact List.mem_map_of_mem _ hsec
      exact h _ this

/-- Witness for C1 (amended) at a concrete input. -/
theorem claim_c1_chunk_budget_witness :
    (∀ u ∈ bodyUnits "hello".data, estimateTokens u ≤ 2) ∧
      ∀ c ∈ chunkBodyText "t".data "hello".data 2, c.token_count.getD 0 ≤ 2 + 1 :=
  ⟨by decide, claim_c1_chunk_budget "t".data "hello".data 2 (by decide)⟩

/-- C1 counterexample to the original bound: with budget 2, the body
`"aaaa\n\nbbbb"` is packed into a single chunk whose stamped `token_count` is
3 > 2 although every unbroken word run of the body fits the budget (the
blank-line separator pushes the estimate over); and the one-paragraph body
`"aa bb cc dd ee ff gg hh"` yields a chunk of 6 tokens — far above the budget
and even above `B + 1` — although every unbroken word run fits the budget,
because the splitter never breaks below paragraph granularity. -/
theorem claim_c1_chunk_budget_cex :
    (∃ c ∈ chunkBodyText "t".data "aaaa\n\nbbbb".data 2, ¬ c.token_count.getD 0 ≤ 2) ∧
    (∀ w ∈ splitWsTokens "aaaa\n\nbbbb".data, estimateTokens w ≤ 2) ∧
    (∃ c ∈ chunkBodyText "t".data "aa bb cc dd ee ff gg hh".data 2,
      ¬ c.token_count.getD 0 ≤ 2 + 1) ∧
    (∀ w ∈ splitWsTokens "aa bb cc dd ee ff gg hh".data, estimateTokens w ≤ 2) := by
  decide

/-! ## Claim C7: dense zero-based chunk indices -/

/-- Index invariant of the packing loops: the running `chunkIndex` equals the
number of emitted chunks and the emitted indices are `0..n-1` in order. -/
def IdxOk (st : PackState) : Prop :=
  st.idx = st.chunks.length ∧
    st.chunks.map (·.chunk_index) = List.range st.chunks.length

/-- The same invariant for the tuple-state inner loops. -/
def IdxOk2 (acc : List TopicChunk × Str × Nat) : Prop :=
  acc.2.2 = acc.1.length ∧ acc.1.map (·.chunk_index) = List.range acc.1.length

theorem pushIdx (l : List TopicChunk) (c : TopicChunk)
    (h1 : l.map (·.chunk_index) = List.range l.length) (h2 : c.chunk_index = l.length) :
    (l ++ [c]).map (·.chunk_index) = List.range (l ++ [c]).length := by
  simp [List.map_append, h1, h2, List.range_succ, List.length_append]

theorem packParasStep_idx (topicId : Str) (B : Nat) (st : PackState) (para : Str)
    (h : IdxOk st) : IdxOk (packParasStep topicId B st para) := by
  obtain ⟨h1, h2⟩ := h
  unfold packParasStep
  split
  · exact ⟨by simp [h1], pushIdx _ _ h2 h1⟩
  · exact ⟨h1, h2⟩

theorem flushCur_idx (topicId : Str) {st : PackState} (h : IdxOk st) :
    IdxOk (flushCur topicId st) := by
  obtain ⟨h1, h2⟩ := h
  unfold flushCur
  split
  · exact ⟨by simp [h1], pushIdx _ _ h2 h1⟩
  · exact ⟨h1, h2⟩

theorem splitSecStep_idx (topicId : Str) (B : Nat) (sec : TopicSection)
    (acc : List TopicChunk × Str × Nat) (para : Str)
    (h : IdxOk2 acc) : IdxOk2 (splitSecStep topicId B sec acc para) := by
  obtain ⟨h1, h2⟩ := h
  unfold splitSecStep
  by_cases hc : B < estimateTokens acc.2.1 + estimateTokens para ∧
      (if sec.level = 0 then 10 else sec.title.length + 10) < (trim acc.2.1).length
  · rw [if_pos hc]
    exact ⟨by simp [h1], pushIdx _ _ h2 h1⟩
  · rw [if_neg hc]
    exact ⟨h1, h2⟩

theorem splitLargeSection_idx (topicId : Str) (B : Nat) (sec : TopicSection)
    (st : PackState) (h : IdxOk st) : IdxOk (splitLargeSection topicId B sec st) := by
  have hfold : IdxOk2 (((splitPara sec.content).filter (fun p => trim p ≠ [])).foldl
      (splitSecStep topicId B sec)
      (st.chunks, (if sec.level = 0 then [] else sectionHeading sec), st.idx)) :=
    foldl_inv _ IdxOk2 _ (fun s a _ hs => splitSecStep_idx topicId B sec s a hs) _ ⟨h.1, h.2⟩
  exact ⟨hfold.1, hfold.2⟩

theorem packSectionsStep_idx (topicId : Str) (B : Nat) (st : PackState)
    (sec : TopicSection) (h : IdxOk st) : IdxOk (packSectionsStep topicId B st sec) := by
  unfold packSectionsStep
  split
  · exact splitLargeSection_idx topicId B sec _ (flushCur_idx topicId h)
  · split
    · exact ⟨by simp [h.1], pushIdx _ _ h.2 h.1⟩
    · exact ⟨h.1, h.2⟩

theorem rechunkSentenceStep_idx (topicId : Str) (B : Nat)
    (acc : List TopicChunk × Str × Nat) (sen : Str)
    (h : IdxOk2 acc) : IdxOk2 (rechunkSentenceStep topicId B acc sen) := by
  obtain ⟨h1, h2⟩ := h
  unfold rechunkSentenceStep
  split
  · exact ⟨by simp [h1], pushIdx _ _ h2 h1⟩
  · exact ⟨h1, h2⟩

theorem rechunkPartStep_idx (topicId : Str) (B : Nat) (st : PackState) (part : Str)
    (h : IdxOk st) : IdxOk (rechunkPartStep topicId B st part) := by
  unfold rechunkPartStep
  split
  · split
    · exact ⟨by simp [h.1], pushIdx _ _ h.2 h.1⟩
    · exact ⟨h.1, h.2⟩
  · have hst1 := flushCur_idx topicId h
    have hfold : IdxOk2 ((sentSplit part).foldl (rechunkSentenceStep topicId B)
        ((flushCur topicId st).chunks, [], (flushCur topicId st).idx)) :=
      foldl_inv _ IdxOk2 _ (fun s a _ hs => rechunkSentenceStep_idx topicId B s a hs) _
        ⟨hst1.1, hst1.2⟩
    exact ⟨hfold.1, hfold.2⟩

theorem rechunkChunkStep_idx (topicId : Str) (B : Nat) (st : PackState) (c : TopicChunk)
    (h : IdxOk st) : IdxOk (rechunkChunkStep topicId B st c) := by
  unfold rechunkChunkStep
  split
  · split
    · exact ⟨by simp [h.1], pushIdx _ _ h.2 h.1⟩
    · exact ⟨h.1, h.2⟩
  · exact foldl_inv _ IdxOk _ (fun s a _ hs => rechunkPartStep_idx topicId B s a hs) _
      (flushCur_idx topicId h)

theorem finishPack_idx (topicId : Str) (st : PackState) (h : IdxOk st) :
    (finishPack topicId st).map (·.chunk_index) = List.range (finishPack topicId st).length := by
  obtain ⟨h1, h2⟩ := h
  unfold finishPack
  split
  · exact pushIdx _ _ h2 h1
  · exact h2

/-- C7: the `chunk_index` values produced by `chunkBodyText` — and likewise by
`chunkTopic` when re-chunking existing chunks — are exactly `0..n-1` in order,
with no gaps and no repeats. -/
theorem claim_c7_dense_indices :
    (∀ (topicId bodyText : Str) (B : Nat),
      (chunkBodyText topicId bodyText B).map (·.chunk_index) =
        List.range (chunkBodyText topicId bodyText B).length) ∧
    (∀ (topic : Topic) (B : Nat),
      (chunkTopic topic B none).map (·.chunk_index) =
        List.range (chunkTopic topic B none).length) := by
  constructor
  · intro topicId bodyText B
    by_cases h0 : trim bodyText = []
    · simp [chunkBodyText, h0]
    · by_cases hH : findHeadings bodyText = []
      · simp only [chunkBodyText, if_neg h0, if_pos hH]
        exact finishPack_idx topicId _ (foldl_inv _ IdxOk _
          (fun s a _ hs => packParasStep_idx topicId B s a hs) _ ⟨rfl, rfl⟩)
      · simp only [chunkBodyText, if_neg h0, if_neg hH]
        exact finishPack_idx topicId _ (foldl_inv _ IdxOk _
          (fun s a _ hs => packSectionsStep_idx topicId B s a hs) _ ⟨rfl, rfl⟩)
  · intro topic B
    by_cases h0 : topic.body_chunks = []
    · simp [chunkTopic, h0]
    · simp only [chunkTopic, if_neg h0]
      exact finishPack_idx topic.id _ (foldl_inv _ IdxOk _
        (fun s a _ hs => rechunkChunkStep_idx topic.id B s a hs) _ ⟨rfl, rfl⟩)

/-! ## Claim C3: term-frequency scoring, zero-score exclusion, sorting -/

open SearchIndex

instance : Inhabited DocSource := ⟨.online⟩

instance : Inhabited Topic := ⟨⟨[], [], [], [], [], [], [], [], [], .online⟩⟩

instance : Inhabited IndexEntry := ⟨⟨default, [], [], []⟩⟩

theorem filterMap_const_none {α β : Type _} (l : List α) :
    (l.filterMap fun _ => (none : Option β)) = [] := by
  induction l with
  | nil => rfl
  | cons a t ih => simp [List.filterMap_cons, ih]

/-- The score formula exactly as the specification states it: for each query
token, 3 times its title occurrences plus 2 times its summary occurrences plus
1 times its body occurrences, summed over all query tokens. -/
def specScore (qt : List Str) (e : IndexEntry) : Nat :=
  (qt.map fun t =>
    3 * countToken e.titleTokens t + 2 * countToken e.summaryTokens t +
      countToken e.bodyTokens t).sum

theorem calculateScore_eq_specScore (qt : List Str) (e : IndexEntry) :
    calculateScore qt e = specScore qt e := by
  unfold calculateScore specScore
  induction qt with
  | nil => rfl
  | cons a t ih =>
    simp only [List.map_cons, List.sum_cons] at *
    omega

theorem scoredResults_eq_spec (qt : List Str) (v sec : Option Str) (st : IndexState) :
    scoredResults qt v sec st =
      ((st.map Prod.snd).filter (passesFilters v sec)).filterMap fun e =>
        if 0 < specScore qt e then some (mkResult e (specScore qt e)) else none := by
  simp only [scoredResults, calculateScore_eq_specScore]
  generalize st.map Prod.snd = l
  induction l with
  | nil => rfl
  | cons e t ih =>
    by_cases hp : passesFilters v sec e
    · simp [List.filterMap_cons, List.filter_cons, hp, ih]
    · simp [List.filterMap_cons, List.filter_cons, hp, ih]

instance : IsTotal SearchResult srel := ⟨fun a b => Nat.le_total b.score a.score⟩

instance : IsTrans SearchResult srel := ⟨fun _ _ _ h1 h2 => Nat.le_trans h2 h1⟩

theorem tokenize_nil : tokenize [] = [] := rfl

theorem sortResults_pairwise (l : List SearchResult) :
    List.Pairwise (fun a b : SearchResult => b.score ≤ a.score) (sortResults l) :=
  List.sorted_insertionSort srel l

theorem search_none_eq_sorted (q : Str) (v sec : Option Str) (st : IndexState)
    (h0 : ¬ trim q = []) (h1 : ¬ tokenize (trim q) = []) :
    search q v sec none st = sortResults (scoredResults (tokenize (trim q)) v sec st) := by
  simp [search, searchM, h0, h1]

theorem sortResults_length (l : List SearchResult) : (sortResults l).length = l.length :=
  (List.perm_insertionSort srel l).length_eq

/-- C3: the results of an unlimited `search` are exactly, up to ordering, the
filter-passing entries whose spec-formula score (3×title + 2×summary +
1×body occurrences per query token, summed) is positive, each carried with
that score — entries scoring 0 are excluded — and for every limit the
returned list is sorted in descending score order. -/
theorem claim_c3_scoring (st : IndexState) (q : Str) (v sec : Option Str) :
    List.Perm (search q v sec none st)
      (((st.map Prod.snd).filter (passesFilters v sec)).filterMap fun e =>
        if 0 < specScore (tokenize (trim q)) e then
          some (mkResult e (specScore (tokenize (trim q)) e))
        else none) ∧
    ∀ lim, List.Pairwise (fun a b : SearchResult => b.score ≤ a.score)
      (search q v sec lim st) := by
  constructor
  · by_cases h0 : trim q = []
    · have hq : tokenize (trim q) = [] := by rw [h0]; rfl
      have hL : search q v sec none st = [] := by simp [search, searchM, h0]
      rw [hL, hq]
      have : (((st.map Prod.snd).filter (passesFilters v sec)).filterMap fun e =>
          if 0 < specScore [] e then some (mkResult e (specScore [] e)) else none) = [] := by
        have : ∀ e : IndexEntry, specScore [] e = 0 := fun _ => rfl
        simp [this]
      rw [this]
    · by_cases h1 : tokenize (trim q) = []
      · have hL : search q v sec none st = [] := by simp [search, searchM, h0, h1]
        rw [hL, h1]
        have : (((st.map Prod.snd).filter (passesFilters v sec)).filterMap fun e =>
            if 0 < specScore [] e then some (mkResult e (specScore [] e)) else none) = [] := by
          have : ∀ e : IndexEntry, specScore [] e = 0 := fun _ => rfl
          simp [this]
        rw [this]
      · rw [search_none_eq_sorted q v sec st h0 h1, ← scoredResults_eq_spec]
        exact List.perm_insertionSort srel _
  · intro lim
    by_cases h0 : trim q = []
    · simp [search, searchM, h0]
    · by_cases h1 : tokenize (trim q) = []
      · simp [search, searchM, h0, h1]
      · cases lim with
        | none =>
          rw [search_none_eq_sorted q v sec st h0 h1]
          exact sortResults_pairwise _
        | some x =>
          have hx : search q v sec (some x) st =
              if max 0 x = 0 then [] else
                (sortResults (scoredResults (tokenize (trim q)) v sec st)).take (max 0 x).toNat := by
            simp [search, searchM, h0, h1]
          rw [hx]
          split
          · exact List.Pairwise.nil
          · exact (sortResults_pairwise _).sublist (List.take_sublist _ _)

/-! ## Claim C8: limit handling -/

theorem scoredResults_length (qt : List Str) (v sec : Option Str) (st : IndexState) :
    (scoredResults qt v sec st).length =
      (((st.map Prod.snd).filter (passesFilters v sec)).filter
        (fun e => 0 < calculateScore qt e)).length := by
  unfold scoredResults
  generalize st.map Prod.snd = l
  induction l with
  | nil => rfl
  | cons e t ih =>
    by_cases hp : passesFilters v sec e
    · by_cases hs : 0 < calculateScore qt e
      · simp [List.filterMap_cons, List.filter_cons, hp, hs, ih]
      · simp [List.filterMap_cons, List.filter_cons, hp, hs, ih]
    · simp [List.filterMap_cons, List.filter_cons, hp, ih]

/-- C8: an undefined limit returns all non-zero-score matches (the length of
the unlimited result equals the number of filter-passing entries with
positive score); `limit ≤ 0` — including negative values — returns the empty
list; `limit > 0` returns the first `limit` results after sorting. -/
theorem claim_c8_limit (st : IndexState) (q : Str) (v sec : Option Str) :
    (∀ l : Int, search q v sec (some l) st =
      if l ≤ 0 then [] else (search q v sec none st).take l.toNat) ∧
    (search q v sec none st).length =
      (((st.map Prod.snd).filter (passesFilters v sec)).filter
        (fun e => 0 < calculateScore (tokenize (trim q)) e)).length := by
  constructor
  · intro l
    by_cases h0 : trim q = []
    · simp [search, searchM, h0]
    · by_cases h1 : tokenize (trim q) = []
      · simp [search, searchM, h0, h1]
      · by_cases hl : l ≤ 0
        · have hmax : max 0 l = 0 := by omega
          simp [search, searchM, h0, h1, hmax, hl]
        · have hmax : max 0 l = l := by omega
          have hne : ¬ l = 0 := by omega
          simp [search, searchM, h0, h1, hne, hl, hmax]
  · by_cases h0 : trim q = []
    · have hz : ∀ e : IndexEntry, calculateScore (tokenize []) e = 0 := fun _ => rfl
      simp [search, searchM, h0, hz]
    · by_cases h1 : tokenize (trim q) = []
      · have hz : ∀ e : IndexEntry, calculateScore ([] : List Str) e = 0 := fun _ => rfl
        simp [search, searchM, h0, h1, hz]
      · rw [search_none_eq_sorted q v sec st h0 h1, sortResults_length]
        exact scoredResults_length _ v sec st

/-! ## Claim C9: C++ symbol-normalization round trip (corrected) -/

theorem countToken_pos {l : List Str} {a : Str} (h : a ∈ l) : 0 < countToken l a := by
  unfold countToken
  have hm : a ∈ l.filter (fun t => t = a) := List.mem_filter.2 ⟨h, by simp⟩
  exact List.length_pos.2 (List.ne_nil_of_mem hm)

theorem addTopic_nil (t : Topic) : addTopic t [] = [(indexKey t, entryOf t)] := by
  simp [addTopic, mapSet]

/-- A topic whose title contains the literal text `C++` embedded in a longer
word. -/
def topicVcpp : Topic :=
  { id := "x".data, version := "v".data, title := "VC++ Guide".data,
    sectionName := "s".data, path := [], summary := [], body_chunks := [],
    links := [], url := "u".data, source := .online }

/-- C9 counterexample: `topicVcpp`'s title contains the literal text `"C++"`,
but after `addTopic`, `search("c-plus-plus")` returns nothing — the
normalization turns `vc++` into the single token `vc-plus-plus`, which does
not coincide with the query token `c-plus-plus`. -/
theorem claim_c9_symbol_cex :
    topicVcpp.title = 'V' :: ("C++".data ++ " Guide".data) ∧
    search "c-plus-plus".data none none none (addTopic topicVcpp []) = [] := by
  constructor
  · decide
  · decide

/-- C9 (amended): after `addTopic` of a record whose title tokenization
contains the token `c-plus-plus` — which is the case exactly when `C++`
appears as a standalone word, e.g. title `"C++ Guide"` — `search("c-plus-plus")`
returns that record with a positive score. -/
theorem claim_c9_symbol_roundtrip (t : Topic)
    (h : "c-plus-plus".data ∈ tokenize t.title) :
    ∃ r ∈ search "c-plus-plus".data none none none (addTopic t []),
      r.topic_id = t.id ∧ 0 < r.score := by
  have htok : tokenize (trim "c-plus-plus".data) = ["c-plus-plus".data] := by decide
  have hpos : 0 < calculateScore ["c-plus-plus".data] (entryOf t) := by
    have hc : 0 < countToken (entryOf t).titleTokens "c-plus-plus".data := countToken_pos h
    have he : "c-plus-plus".data = ['c', '-', 'p', 'l', 'u', 's', '-', 'p', 'l', 'u', 's'] := rfl
    rw [he] at hc
    unfold calculateScore
    simp only [List.map_cons, List.map_nil, List.sum_cons, List.sum_nil, he]
    omega
  have hq : ¬ trim "c-plus-plus".data = [] := by decide
  have h1 : ¬ tokenize (trim "c-plus-plus".data) = [] := by rw [htok]; simp
  rw [search_none_eq_sorted _ none none _ hq h1, htok, addTopic_nil]
  have hscored : scoredResults ["c-plus-plus".data] none none [(indexKey t, entryOf t)] =
      [mkResult (entryOf t) (calculateScore ["c-plus-plus".data] (entryOf t))] := by
    simp [scoredResults, passesFilters, hpos]
  rw [hscored]
  exact ⟨mkResult (entryOf t) (calculateScore ["c-plus-plus".data] (entryOf t)),
    by simp [sortResults, List.insertionSort, List.orderedInsert], rfl, hpos⟩

/-- A topic with the spec scenario's title `"C++ Guide"`. -/
def topicCpp : Topic :=
  { id := "x".data, version := "v".data, title := "C++ Guide".data,
    sectionName := "s".data, path := [], summary := [], body_chunks := [],
    links := [], url := "u".data, source := .online }

/-- Witness for C9 (amended) at the spec scenario's title. -/
theorem claim_c9_symbol_roundtrip_witness :
    ("c-plus-plus".data ∈ tokenize topicCpp.title) ∧
      ∃ r ∈ search "c-plus-plus".data none none none (addTopic topicCpp []),
        r.topic_id = topicCpp.id ∧ 0 < r.score :=
  ⟨by decide, claim_c9_symbol_roundtrip topicCpp (by decide)⟩

/-! ## Claim C4: version isolation (corrected) -/

/-- Two records with the same id, one carrying the empty-string version. -/
def topicBlankVer : Topic :=
  { id := "x".data, version := [], title := "q".data, sectionName := "s".data,
    path := [], summary := [], body_chunks := [], links := [], url := [],
    source := .online }

def topicV2 : Topic :=
  { id := "x".data, version := "v2".data, title := "q".data, sectionName := "s".data,
    path := [], summary := [], body_chunks := [], links := [], url := [],
    source := .online }

/-- C4 counterexample: the two records have the same id and different
versions, both match the query, yet filtering the search by the first
record's version (the empty string) does not return only that version's
record — a second result with a different version comes back, because an
empty version filter is falsy in JavaScript and disables filtering. -/
theorem claim_c4_version_cex :
    topicBlankVer.id = topicV2.id ∧
    topicBlankVer.version ≠ topicV2.version ∧
    (∃ r ∈ search "q".data (some topicBlankVer.version) none none
        (addTopic topicV2 (addTopic topicBlankVer [])),
      r.version ≠ topicBlankVer.version) := by
  refine ⟨by decide, by decide, ?_⟩
  decide

theorem indexKey_ne {r1 r2 : Topic} (hid : r1.id = r2.id)
    (hv : r1.version ≠ r2.version) : indexKey r1 ≠ indexKey r2 := by
  intro he
  unfold indexKey at he
  rw [hid] at he
  exact hv (List.append_cancel_right he)

theorem entryOf_topic (t : Topic) : (entryOf t).topic = t := rfl

theorem addTopic_two {r1 r2 : Topic} (hid : r1.id = r2.id)
    (hv : r1.version ≠ r2.version) :
    addTopic r2 (addTopic r1 []) =
      [(indexKey r1, entryOf r1), (indexKey r2, entryOf r2)] := by
  have hk : ¬ indexKey r1 = indexKey r2 := indexKey_ne hid hv
  rw [addTopic_nil]
  simp [addTopic, mapSet, hk]

/-- C4 (amended): for records with the same id and different, **non-empty**
versions, each remains independently searchable — filtering by either version
returns exactly that version's record, and an unfiltered search matching both
returns both. (For an empty-string version the filter is disabled instead.) -/
theorem claim_c4_version_isolation (r1 r2 : Topic) (q : Str)
    (hid : r1.id = r2.id) (hv : r1.version ≠ r2.version)
    (hv1 : r1.version ≠ []) (hv2 : r2.version ≠ [])
    (hs1 : 0 < calculateScore (tokenize (trim q)) (entryOf r1))
    (hs2 : 0 < calculateScore (tokenize (trim q)) (entryOf r2)) :
    search q (some r1.version) none none (addTopic r2 (addTopic r1 [])) =
      [mkResult (entryOf r1) (calculateScore (tokenize (trim q)) (entryOf r1))] ∧
    search q (some r2.version) none none (addTopic r2 (addTopic r1 [])) =
      [mkResult (entryOf r2) (calculateScore (tokenize (trim q)) (entryOf r2))] ∧
    (search q none none none (addTopic r2 (addTopic r1 []))).length = 2 ∧
    mkResult (entryOf r1) (calculateScore (tokenize (trim q)) (entryOf r1)) ∈
      search q none none none (addTopic r2 (addTopic r1 [])) ∧
    mkResult (entryOf r2) (calculateScore (tokenize (trim q)) (entryOf r2)) ∈
      search q none none none (addTopic r2 (addTopic r1 [])) := by
  have h1 : ¬ tokenize (trim q) = [] := by
    intro hq
    have hz : calculateScore ([] : List Str) (entryOf r1) = 0 := rfl
    rw [hq, hz] at hs1
    exact absurd hs1 (lt_irrefl 0)
  have h0 : ¬ trim q = [] := by
    intro hq
    exact h1 (by rw [hq]; rfl)
  have hst := addTopic_two hid hv
  have hv21 : ¬ r2.version = r1.version := fun hh => hv hh.symm
  have hv12 : ¬ r1.version = r2.version := hv
  have hmem : ∀ (a : SearchResult) (l : List SearchResult), a ∈ sortResults l ↔ a ∈ l :=
    fun a l => (List.perm_insertionSort srel l).mem_iff
  refine ⟨?_, ?_, ?_, ?_, ?_⟩
  · rw [search_none_eq_sorted q _ none _ h0 h1, hst]
    have hsc : scoredResults (tokenize (trim q)) (some r1.version) none
        [(indexKey r1, entryOf r1), (indexKey r2, entryOf r2)] =
        [mkResult (entryOf r1) (calculateScore (tokenize (trim q)) (entryOf r1))] := by
      simp [scoredResults, passesFilters, entryOf_topic, List.filterMap_cons, hv1, hs1, hv21]
    rw [hsc]
    simp [sortResults, List.insertionSort, List.orderedInsert]
  · rw [search_none_eq_sorted q _ none _ h0 h1, hst]
    have hsc : scoredResults (tokenize (trim q)) (some r2.version) none
        [(indexKey r1, entryOf r1), (indexKey r2, entryOf r2)] =
        [mkResult (entryOf r2) (calculateScore (tokenize (trim q)) (entryOf r2))] := by
      simp [scoredResults, passesFilters, entryOf_topic, List.filterMap_cons, hv2, hs2, hv12]
    rw [hsc]
    simp [sortResults, List.insertionSort, List.orderedInsert]
  · rw [search_none_eq_sorted q none none _ h0 h1, hst, sortResults_length]
    simp [scoredResults, passesFilters, entryOf_topic, List.filterMap_cons, hs1, hs2]
  · rw [search_none_eq_sorted q none none _ h0 h1, hst, hmem]
    simp [scoredResults, passesFilters, entryOf_topic, List.filterMap_cons, hs1, hs2]
  · rw [search_none_eq_sorted q none none _ h0 h1, hst, hmem]
    simp [scoredResults, passesFilters, entryOf_topic, List.filterMap_cons, hs1, hs2]

/-- Two concrete versioned records for the C4 witness. -/
def topicV1w : Topic :=
  { id := "x".data, version := "v1".data, title := "q".data, sectionName := "s".data,
    path := [], summary := [], body_chunks := [], links := [], url := [],
    source := .online }

def topicV2w : Topic :=
  { id := "x".data, version := "v2".data, title := "q".data, sectionName := "s".data,
    path := [], summary := [], body_chunks := [], links := [], url := [],
    source := .online }

/-- Witness for C4 (amended) at concrete records and query. -/
theorem claim_c4_version_isolation_witness :
    (topicV1w.id = topicV2w.id ∧ topicV1w.version ≠ topicV2w.version ∧
      topicV1w.version ≠ [] ∧ topicV2w.version ≠ []) ∧
    (search "q".data none none none (addTopic topicV2w (addTopic topicV1w []))).length = 2 :=
  ⟨⟨by decide, by decide, by decide, by decide⟩,
    (claim_c4_version_isolation topicV1w topicV2w "q".data (by decide) (by decide)
      (by decide) (by decide) (by decide) (by decide)).2.2.1⟩

/-! ## Claim C6: re-chunking existing chunks (corrected) -/

/-- Modelled from the amended claim: greedily group units in order, starting
a new group when appending the next unit would cross the budget (a group is
never started by the overflow check alone while empty); as they are packed,
units are joined with `sep`. All groups are returned, the (possibly empty)
final group last. -/
def packGreedy (B : Nat) (sep : Str) : List Str → Str → List Str
  | [], cur => [cur]
  | u :: us, cur =>
    if B < estimateTokens cur + estimateTokens u ∧ cur ≠ [] then
      cur :: packGreedy B sep us u
    else packGreedy B sep us (if cur ≠ [] then cur ++ sep ++ u else u)

/-- Turn greedy groups into chunks: every full group is emitted trimmed with
its estimated token count; the final group is emitted only when its trimmed
text is non-empty. -/
def chunksFromPacks (topicId : Str) : List Str → Nat → List TopicChunk
  | [], _ => []
  | p :: rest, idx =>
    match rest with
    | [] =>
      if trim p ≠ [] then [⟨topicId, idx, trim p, some (estimateTokens p)⟩] else []
    | _ :: _ =>
      ⟨topicId, idx, trim p, some (estimateTokens p)⟩ ::
        chunksFromPacks topicId rest (idx + 1)

/-- Modelled from the amended claim: concatenation of adjacent under-budget
chunks with blank-line separators. -/
def rechunkMergeModel (topicId : Str) (B : Nat) (texts : List Str) : List TopicChunk :=
  chunksFromPacks topicId (packGreedy B ['\n', '\n'] texts []) 0

/-- Modelled from the amended claim: greedy packing of the sentence pieces of
one over-budget part, joined with single spaces. -/
def sentencePackModel (topicId : Str) (B : Nat) (sentences : List Str) : List TopicChunk :=
  chunksFromPacks topicId (packGreedy B [' '] sentences []) 0

def stateOfTuple (acc : List TopicChunk × Str × Nat) : PackState :=
  ⟨acc.1, acc.2.1, acc.2.2⟩

theorem packGreedy_ne_nil (B : Nat) (sep : Str) :
    ∀ (us : List Str) (cur : Str), packGreedy B sep us cur ≠ [] := by
  intro us
  induction us with
  | nil => intro cur; simp [packGreedy]
  | cons u t ih =>
    intro cur
    simp only [packGreedy]
    split
    · simp
    · exact ih _

theorem chunksFromPacks_cons (topicId : Str) (p : Str) (rest : List Str) (idx : Nat)
    (h : rest ≠ []) :
    chunksFromPacks topicId (p :: rest) idx =
      ⟨topicId, idx, trim p, some (estimateTokens p)⟩ ::
        chunksFromPacks topicId rest (idx + 1) := by
  cases rest with
  | nil => exact absurd rfl h
  | cons a t => rfl

theorem rechunkChunkStep_small_flush (topicId : Str) (B : Nat) (st : PackState)
    (c : TopicChunk) (hle : estimateTokens c.text ≤ B) (hc0 : st.cur ≠ [])
    (hlt : B < estimateTokens st.cur + estimateTokens c.text) :
    rechunkChunkStep topicId B st c =
      ⟨st.chunks ++ [emit topicId st], c.text, st.idx + 1⟩ := by
  unfold rechunkChunkStep
  rw [if_pos hle, if_pos ⟨hc0, hlt⟩]

theorem rechunkChunkStep_small_join (topicId : Str) (B : Nat) (st : PackState)
    (c : TopicChunk) (hle : estimateTokens c.text ≤ B)
    (h : ¬(st.cur ≠ [] ∧ B < estimateTokens st.cur + estimateTokens c.text)) :
    rechunkChunkStep topicId B st c =
      { st with cur := if st.cur ≠ [] then st.cur ++ '\n' :: '\n' :: c.text else c.text } := by
  unfold rechunkChunkStep
  rw [if_pos hle, if_neg h]

/-- The re-chunk loop, restricted to under-budget chunks, is exactly the
greedy blank-line concatenation of the chunk texts. -/
theorem merge_equiv (topicId : Str) (B : Nat) :
    ∀ (cs : List TopicChunk) (chunks : List TopicChunk) (cur : Str) (idx : Nat),
      (∀ c ∈ cs, estimateTokens c.text ≤ B) →
      finishPack topicId (cs.foldl (rechunkChunkStep topicId B) ⟨chunks, cur, idx⟩) =
        chunks ++ chunksFromPacks topicId (packGreedy B ['\n', '\n'] (cs.map (·.text)) cur) idx := by
  intro cs
  induction cs with
  | nil =>
    intro chunks cur idx _
    simp only [List.foldl_nil, List.map_nil, packGreedy, chunksFromPacks, finishPack, emit]
    by_cases ht : trim cur = []
    · simp [ht]
    · simp [ht]
  | cons c t ih =>
    intro chunks cur idx hb
    have hcB : estimateTokens c.text ≤ B := hb c (List.mem_cons_self c t)
    have hrest : ∀ x ∈ t, estimateTokens x.text ≤ B :=
      fun x hx => hb x (List.mem_cons_of_mem _ hx)
    simp only [List.foldl_cons, List.map_cons]
    by_cases hc0 : cur = []
    · have hni : ¬((⟨chunks, cur, idx⟩ : PackState).cur ≠ [] ∧
          B < estimateTokens (⟨chunks, cur, idx⟩ : PackState).cur + estimateTokens c.text) :=
        fun hcontra => hcontra.1 hc0
      rw [rechunkChunkStep_small_join topicId B _ c hcB hni]
      rw [show packGreedy B ['\n', '\n'] (c.text :: t.map (·.text)) cur =
          packGreedy B ['\n', '\n'] (t.map (·.text)) c.text from by
        simp only [packGreedy]
        rw [if_neg (fun hcontra => hcontra.2 hc0), if_neg (fun hcontra => hcontra hc0)]]
      have hst : ({ (⟨chunks, cur, idx⟩ : PackState) with
          cur := if (⟨chunks, cur, idx⟩ : PackState).cur ≠ [] then
            (⟨chunks, cur, idx⟩ : PackState).cur ++ '\n' :: '\n' :: c.text
          else c.text } : PackState) = ⟨chunks, c.text, idx⟩ := by
        simp [hc0]
      rw [hst, ih chunks c.text idx hrest]
    · by_cases hlt : B < estimateTokens cur + estimateTokens c.text
      · rw [rechunkChunkStep_small_flush topicId B _ c hcB hc0 hlt]
        rw [ih (chunks ++ [emit topicId ⟨chunks, cur, idx⟩]) c.text (idx + 1) hrest]
        rw [show packGreedy B ['\n', '\n'] (c.text :: t.map (·.text)) cur =
            cur :: packGreedy B ['\n', '\n'] (t.map (·.text)) c.text from by
          simp only [packGreedy]
          rw [if_pos ⟨hlt, hc0⟩]]
        rw [chunksFromPacks_cons topicId cur _ idx (packGreedy_ne_nil B _ _ _)]
        simp [emit, List.append_assoc]
      · have hni : ¬((⟨chunks, cur, idx⟩ : PackState).cur ≠ [] ∧
            B < estimateTokens (⟨chunks, cur, idx⟩ : PackState).cur + estimateTokens c.text) :=
          fun hcontra => hlt hcontra.2
        rw [rechunkChunkStep_small_join topicId B _ c hcB hni]
        rw [show packGreedy B ['\n', '\n'] (c.text :: t.map (·.text)) cur =
            packGreedy B ['\n', '\n'] (t.map (·.text)) (cur ++ ['\n', '\n'] ++ c.text) from by
          simp only [packGreedy]
          rw [if_neg (fun hcontra => hlt hcontra.1), if_pos hc0]]
        have hst : ({ (⟨chunks, cur, idx⟩ : PackState) with
            cur := if (⟨chunks, cur, idx⟩ : PackState).cur ≠ [] then
              (⟨chunks, cur, idx⟩ : PackState).cur ++ '\n' :: '\n' :: c.text
            else c.text } : PackState) = ⟨chunks, cur ++ '\n' :: '\n' :: c.text, idx⟩ := by
          simp [hc0]
        rw [hst]
        rw [show cur ++ ['\n', '\n'] ++ c.text = cur ++ '\n' :: '\n' :: c.text from by
          simp]
        exact ih chunks _ idx hrest

theorem rechunkSentenceStep_eq_flush (topicId : Str) (B : Nat)
    (acc : List TopicChunk × Str × Nat) (sen : Str)
    (h : B < estimateTokens acc.2.1 + estimateTokens sen ∧ acc.2.1 ≠ []) :
    rechunkSentenceStep topicId B acc sen =
      (acc.1 ++ [⟨topicId, acc.2.2, trim acc.2.1, some (estimateTokens acc.2.1)⟩],
       sen, acc.2.2 + 1) := by
  unfold rechunkSentenceStep
  rw [if_pos h]

theorem rechunkSentenceStep_eq_join (topicId : Str) (B : Nat)
    (acc : List TopicChunk × Str × Nat) (sen : Str)
    (h : ¬(B < estimateTokens acc.2.1 + estimateTokens sen ∧ acc.2.1 ≠ [])) :
    rechunkSentenceStep topicId B acc sen =
      (acc.1, (if acc.2.1 ≠ [] then acc.2.1 ++ ' ' :: sen else sen), acc.2.2) := by
  unfold rechunkSentenceStep
  rw [if_neg h]

/-- The sentence loop of `chunkTopic` is exactly the greedy space-joined
packing of the sentence pieces. -/
theorem sent_equiv (topicId : Str) (B : Nat) :
    ∀ (sens : List Str) (chunks : List TopicChunk) (cur : Str) (idx : Nat),
      finishPack topicId
          (stateOfTuple (sens.foldl (rechunkSentenceStep topicId B) (chunks, cur, idx))) =
        chunks ++ chunksFromPacks topicId (packGreedy B [' '] sens cur) idx := by
  intro sens
  induction sens with
  | nil =>
    intro chunks cur idx
    simp only [List.foldl_nil, packGreedy, chunksFromPacks, finishPack, stateOfTuple, emit]
    by_cases ht : trim cur = []
    · simp [ht]
    · simp [ht]
  | cons sen t ih =>
    intro chunks cur idx
    simp only [List.foldl_cons]
    by_cases hc0 : cur = []
    · have hni : ¬(B < estimateTokens (chunks, cur, idx).2.1 + estimateTokens sen ∧
          (chunks, cur, idx).2.1 ≠ []) := fun hcontra => hcontra.2 hc0
      rw [rechunkSentenceStep_eq_join topicId B _ sen hni]
      rw [show packGreedy B [' '] (sen :: t) cur = packGreedy B [' '] t sen from by
        simp only [packGreedy]
        rw [if_neg (fun hcontra => hcontra.2 hc0), if_neg (fun hcontra => hcontra hc0)]]
      have hst : ((chunks, (if (chunks, cur, idx).2.1 ≠ [] then
          (chunks, cur, idx).2.1 ++ ' ' :: sen else sen), idx) :
          List TopicChunk × Str × Nat) = (chunks, sen, idx) := by
        simp [hc0]
      rw [hst, ih chunks sen idx]
    · by_cases hlt : B < estimateTokens cur + estimateTokens sen
      · rw [rechunkSentenceStep_eq_flush topicId B _ sen ⟨hlt, hc0⟩]
        rw [ih _ sen (idx + 1)]
        rw [show packGreedy B [' '] (sen :: t) cur = cur :: packGreedy B [' '] t sen from by
          simp only [packGreedy]
          rw [if_pos ⟨hlt, hc0⟩]]
        rw [chunksFromPacks_cons topicId cur _ idx (packGreedy_ne_nil B _ _ _)]
        simp [List.append_assoc]
      · have hni : ¬(B < estimateTokens (chunks, cur, idx).2.1 + estimateTokens sen ∧
            (chunks, cur, idx).2.1 ≠ []) := fun hcontra => hlt hcontra.1
        rw [rechunkSentenceStep_eq_join topicId B _ sen hni]
        rw [show packGreedy B [' '] (sen :: t) cur =
            packGreedy B [' '] t (cur ++ [' '] ++ sen) from by
          simp only [packGreedy]
          rw [if_neg (fun hcontra => hlt hcontra.1), if_pos hc0]]
        have hst : ((chunks, (if (chunks, cur, idx).2.1 ≠ [] then
            (chunks, cur, idx).2.1 ++ ' ' :: sen else sen), idx) :
            List TopicChunk × Str × Nat) = (chunks, cur ++ ' ' :: sen, idx) := by
          simp [hc0]
        rw [hst]
        rw [show cur ++ [' '] ++ sen = cur ++ ' ' :: sen from by simp]
        exact ih chunks _ idx

theorem sentTupleToState_nil_cur (acc : List TopicChunk × Str × Nat) :
    sentTupleToState [] acc = stateOfTuple acc := by
  unfold sentTupleToState stateOfTuple
  by_cases h : acc.2.1 = []
  · simp [h]
  · simp [h]

theorem headingParts_no_headings (s : Str) (h : findHeadings s = []) (hne : s ≠ []) :
    headingParts s = [s] := by
  unfold headingParts headingPartsFold
  rw [h]
  simp [List.length_pos.2 hne]

/-! Heading-boundary coverage: the parts of `headingParts` concatenate back
to the whole text. -/

theorem matchHeadingAt_bounds {s : Str} {p : Nat} {m : HeadingMatch} {e : Nat}
    (h : matchHeadingAt s p = some (m, e)) :
    m.index = p ∧ p < e ∧ e ≤ s.length := by
  unfold matchHeadingAt at h
  by_cases hr : 1 ≤ countHashes (s.drop p) ∧ countHashes (s.drop p) ≤ 6
  · rw [if_pos hr] at h
    by_cases hw : wsRunLen (s.drop (p + countHashes (s.drop p))) = 0
    · rw [if_pos hw] at h
      exact absurd h (by simp)
    · rw [if_neg hw] at h
      by_cases hin : p + countHashes (s.drop p) +
          wsRunLen (s.drop (p + countHashes (s.drop p))) < s.length
      · rw [if_pos hin] at h
        obtain ⟨hm, he⟩ := Prod.mk.injEq .. ▸ (Option.some.injEq .. ▸ h)
        have hidx : m.index = p := by rw [← hm]
        have htl : (takeNonLT (s.drop (p + countHashes (s.drop p) +
            wsRunLen (s.drop (p + countHashes (s.drop p)))))).length ≤
            s.length - (p + countHashes (s.drop p) +
              wsRunLen (s.drop (p + countHashes (s.drop p)))) := by
          calc (takeNonLT (s.drop (p + countHashes (s.drop p) +
              wsRunLen (s.drop (p + countHashes (s.drop p)))))).length
              ≤ (s.drop (p + countHashes (s.drop p) +
                wsRunLen (s.drop (p + countHashes (s.drop p))))).length :=
                (List.takeWhile_sublist _).length_le
            _ = s.length - (p + countHashes (s.drop p) +
                wsRunLen (s.drop (p + countHashes (s.drop p)))) := List.length_drop _ _
        refine ⟨hidx, ?_, ?_⟩
        · rw [← he]; omega
        · rw [← he]; omega
      · rw [if_neg hin] at h
        rcases hfind : lastNonLTBefore ((s.drop (p + countHashes (s.drop p))).take
            (wsRunLen (s.drop (p + countHashes (s.drop p)))))
            (wsRunLen (s.drop (p + countHashes (s.drop p)))) with _ | t
        · rw [hfind] at h
          exact absurd h (by simp)
        · rw [hfind] at h
          obtain ⟨hm, he⟩ := Prod.mk.injEq .. ▸ (Option.some.injEq .. ▸ h)
          have hidx : m.index = p := by rw [← hm]
          have ht1 : 1 ≤ t ∧ t < wsRunLen (s.drop (p + countHashes (s.drop p))) := by
            unfold lastNonLTBefore at hfind
            have hmem := List.mem_of_find?_eq_some hfind
            have hfp := List.find?_some hfind
            rw [List.mem_reverse, List.mem_range] at hmem
            simp only [Bool.and_eq_true, decide_eq_true_eq] at hfp
            exact ⟨hfp.1, hmem⟩
          have hwlen : wsRunLen (s.drop (p + countHashes (s.drop p))) ≤
              s.length - (p + countHashes (s.drop p)) := by
            calc wsRunLen (s.drop (p + countHashes (s.drop p)))
                ≤ (s.drop (p + countHashes (s.drop p))).length :=
                  (List.takeWhile_sublist _).length_le
              _ = s.length - (p + countHashes (s.drop p)) := List.length_drop _ _
          have htl : (takeNonLT (s.drop (p + countHashes (s.drop p) + t))).length ≤
              s.length - (p + countHashes (s.drop p) + t) := by
            calc (takeNonLT (s.drop (p + countHashes (s.drop p) + t))).length
                ≤ (s.drop (p + countHashes (s.drop p) + t)).length :=
                  (List.takeWhile_sublist _).length_le
              _ = s.length - (p + countHashes (s.drop p) + t) := List.length_drop _ _
          refine ⟨hidx, ?_, ?_⟩
          · rw [← he]; omega
          · rw [← he]; omega
  · rw [if_neg hr] at h
    exact absurd h (by simp)

theorem findHeadingsAux_bounds (s : Str) :
    ∀ (fuel i : Nat),
      (∀ m ∈ findHeadingsAux s fuel i, i ≤ m.index ∧ m.index < s.length) ∧
      List.Pairwise (· < ·) ((findHeadingsAux s fuel i).map (·.index)) := by
  intro fuel
  induction fuel with
  | zero => intro i; simp [findHeadingsAux]
  | succ fuel ih =>
    intro i
    unfold findHeadingsAux
    by_cases hlen : s.length ≤ i
    · simp [hlen]
    · rw [if_neg hlen]
      by_cases ha : isAnchor s i
      · rw [if_pos ha]
        rcases hm : matchHeadingAt s i with _ | me
        · exact ih (i + 1) |>.imp (fun hb m hmem => ⟨Nat.le_of_succ_le (hb m hmem).1,
            (hb m hmem).2⟩) id
        · obtain ⟨m, e⟩ := me
          obtain ⟨hidx, hlt, hle⟩ := matchHeadingAt_bounds hm
          obtain ⟨hb, hp⟩ := ih e
          have hix : ({ m with title := trim m.title } : HeadingMatch).index = m.index := rfl
          constructor
          · intro m2 hm2
            rcases List.mem_cons.1 hm2 with rfl | hm2
            · omega
            · have := hb m2 hm2
              omega
          · simp only [List.map_cons]
            refine List.Pairwise.cons ?_ hp
            intro j hj
            rcases List.mem_map.1 hj with ⟨m2, hm2, rfl⟩
            have := hb m2 hm2
            omega
      · rw [if_neg ha]
        exact ih (i + 1) |>.imp (fun hb m hmem => ⟨Nat.le_of_succ_le (hb m hmem).1,
          (hb m hmem).2⟩) id

theorem take_concat_take_drop (s : Str) (a b : Nat) (hab : a ≤ b) :
    s.take a ++ ((s.take b).drop a) = s.take b := by
  have h1 : (s.take b).take a = s.take a := by
    rw [List.take_take, Nat.min_eq_left hab]
  calc s.take a ++ (s.take b).drop a
      = (s.take b).take a ++ (s.take b).drop a := by rw [h1]
    _ = s.take b := List.take_append_drop a (s.take b)

theorem headingPartStep_inv (s : Str) :
    ∀ (idxs : List Nat) (parts : List Str) (last : Nat),
      (∀ i ∈ idxs, last ≤ i ∧ i ≤ s.length) →
      List.Pairwise (· < ·) idxs →
      parts.flatten = s.take last → last ≤ s.length →
      (idxs.foldl (headingPartStep s) (parts, last)).1.flatten =
          s.take (idxs.foldl (headingPartStep s) (parts, last)).2 ∧
        (idxs.foldl (headingPartStep s) (parts, last)).2 ≤ s.length := by
  intro idxs
  induction idxs with
  | nil =>
    intro parts last _ _ hjoin hlast
    exact ⟨hjoin, hlast⟩
  | cons i t ih =>
    intro parts last hb hp hjoin hlast
    have hbi := hb i (List.mem_cons_self i t)
    have hbt := fun j hj => hb j (List.mem_cons_of_mem i hj)
    rw [List.pairwise_cons] at hp
    simp only [List.foldl_cons]
    by_cases hlt : last < i
    · rw [show headingPartStep s (parts, last) i =
          (parts ++ [jsSubstring s last i], i) from by
        unfold headingPartStep
        rw [if_pos hlt]]
      refine ih (parts ++ [jsSubstring s last i]) i
        (fun j hj => ⟨le_of_lt (hp.1 j hj), (hbt j hj).2⟩) hp.2 ?_ hbi.2
      rw [List.flatten_append]
      simp only [List.flatten_cons, List.flatten_nil, List.append_nil]
      rw [hjoin]
      unfold jsSubstring
      rw [if_pos (le_of_lt hlt)]
      exact take_concat_take_drop s last i (le_of_lt hlt)
    · have hEq : last = i := le_antisymm hbi.1 (not_lt.1 hlt)
      rw [show headingPartStep s (parts, last) i = (parts, i) from by
        unfold headingPartStep
        rw [if_neg hlt]]
      exact ih parts i (fun j hj => ⟨le_of_lt (hp.1 j hj), (hbt j hj).2⟩) hp.2
        (by rw [← hEq]; exact hjoin) hbi.2

theorem headingParts_join (s : Str) : (headingParts s).flatten = s := by
  have hbounds := findHeadingsAux_bounds s (s.length + 1) 0
  have hb : ∀ i ∈ (findHeadings s).map (·.index), 0 ≤ i ∧ i ≤ s.length := by
    intro i hi
    rcases List.mem_map.1 hi with ⟨m, hm, rfl⟩
    exact ⟨Nat.zero_le _, le_of_lt (hbounds.1 m hm).2⟩
  have hinv := headingPartStep_inv s ((findHeadings s).map (·.index)) [] 0 hb
    hbounds.2 (by simp) (Nat.zero_le _)
  unfold headingParts headingPartsFold
  by_cases hfin : (((findHeadings s).map (·.index)).foldl (headingPartStep s) ([], 0)).2 < s.length
  · rw [if_pos hfin]
    rw [List.flatten_append]
    rw [hinv.1]
    simp only [List.flatten_cons, List.flatten_nil, List.append_nil]
    exact List.take_append_drop _ s
  · rw [if_neg hfin]
    have : (((findHeadings s).map (·.index)).foldl (headingPartStep s) ([], 0)).2 = s.length := by
      omega
    rw [hinv.1, this, List.take_length]

theorem headingParts_eq_fold (s : Str) :
    headingParts s = (if (headingPartsFold s ((findHeadings s).map (·.index))).2 < s.length then
      (headingPartsFold s ((findHeadings s).map (·.index))).1 ++
        [s.drop (headingPartsFold s ((findHeadings s).map (·.index))).2]
    else (headingPartsFold s ((findHeadings s).map (·.index))).1) := rfl

/-- C6 (amended): `chunkTopic` with no raw body text (1) concatenates
adjacent under-budget chunks greedily with blank-line separators, (2) splits
an over-budget chunk at heading-match boundaries — the parts concatenate back
to the whole text — and (3) splits a part that is still over budget directly
by the sentence heuristic (break after `.`, `!`, `?` followed by whitespace),
greedily re-packing the sentence pieces joined by single spaces. There is no
paragraph-boundary stage. -/
theorem claim_c6_rechunk :
    (∀ (topic : Topic) (B : Nat),
      (∀ c ∈ topic.body_chunks, estimateTokens c.text ≤ B) →
      chunkTopic topic B none =
        rechunkMergeModel topic.id B (topic.body_chunks.map (·.text))) ∧
    (∀ s : Str, (headingParts s).flatten = s) ∧
    (∀ (topic : Topic) (B : Nat) (c : TopicChunk),
      topic.body_chunks = [c] → findHeadings c.text = [] →
      B < estimateTokens c.text →
      chunkTopic topic B none = sentencePackModel topic.id B (sentSplit c.text)) := by
  refine ⟨?_, headingParts_join, ?_⟩
  · intro topic B hb
    by_cases hbc : topic.body_chunks = []
    · simp [chunkTopic, hbc, rechunkMergeModel, packGreedy, chunksFromPacks, trim_nil]
    · simp only [chunkTopic, if_neg hbc]
      rw [merge_equiv topic.id B topic.body_chunks [] [] 0 hb]
      simp [rechunkMergeModel]
  · intro topic B c hbc hH hgt
    have hne : topic.body_chunks ≠ [] := by rw [hbc]; simp
    have hct : c.text ≠ [] := by
      intro h0
      rw [h0] at hgt
      simp [estimateTokens] at hgt
    simp only [chunkTopic, if_neg hne, hbc, List.foldl_cons, List.foldl_nil]
    have hgt2 : ¬ estimateTokens c.text ≤ B := by omega
    have hflush : flushCur topic.id (⟨[], [], 0⟩ : PackState) = ⟨[], [], 0⟩ := by
      unfold flushCur
      simp
    rw [show rechunkChunkStep topic.id B ⟨[], [], 0⟩ c =
        (headingParts c.text).foldl (rechunkPartStep topic.id B)
          (flushCur topic.id ⟨[], [], 0⟩) from by
      unfold rechunkChunkStep
      rw [if_neg hgt2]]
    rw [hflush, headingParts_no_headings c.text hH hct, List.foldl_cons, List.foldl_nil]
    rw [show rechunkPartStep topic.id B ⟨[], [], 0⟩ c.text =
        sentTupleToState (flushCur topic.id ⟨[], [], 0⟩).cur
          ((sentSplit c.text).foldl (rechunkSentenceStep topic.id B)
            ((flushCur topic.id ⟨[], [], 0⟩).chunks, [],
             (flushCur topic.id ⟨[], [], 0⟩).idx)) from by
      unfold rechunkPartStep
      rw [if_neg hgt2]]
    rw [hflush]
    rw [show (⟨[], [], 0⟩ : PackState).cur = [] from rfl]
    rw [sentTupleToState_nil_cur]
    rw [show (⟨[], [], 0⟩ : PackState).chunks = [] from rfl,
      show (⟨[], [], 0⟩ : PackState).idx = 0 from rfl]
    rw [sent_equiv topic.id B (sentSplit c.text) [] [] 0]
    simp [sentencePackModel]

def rechunkCexText : Str :=
  "AAAAAAAAAAAAAAAAAAAAAAAA\n\nBBBBBBBBBBBBBBBBBBBBBBBB".data

/-- A topic carrying one over-budget chunk consisting of two blank-line
paragraphs with no sentence punctuation and no headings. -/
def topicC6 : Topic :=
  { id := "t".data, version := "v".data, title := "T".data, sectionName := "s".data,
    path := [], summary := [], body_chunks := [⟨"t".data, 0, rechunkCexText, some 13⟩],
    links := [], url := [], source := .online }

/-- C6 counterexample to "heading then **paragraph** then sentence": the
topic's single chunk is over budget (13 estimated tokens > 7), has no
headings, and consists of exactly two blank-line paragraphs that each fit the
budget — yet `chunkTopic` returns it as a single over-budget chunk instead of
splitting at the paragraph boundary, because the re-chunker has no
paragraph-boundary stage. -/
theorem claim_c6_rechunk_cex :
    (chunkTopic topicC6 7 none).length = 1 ∧
    (∀ c ∈ chunkTopic topicC6 7 none, 7 < c.token_count.getD 0) ∧
    (splitPara rechunkCexText).length = 2 ∧
    (∀ p ∈ splitPara rechunkCexText, estimateTokens p ≤ 7) ∧
    findHeadings rechunkCexText = [] := by decide

/-- A topic with two small chunks for the C6 witness. -/
def topicMergeW : Topic :=
  { id := "t".data, version := "v".data, title := "T".data, sectionName := "s".data,
    path := [], summary := [],
    body_chunks := [⟨"t".data, 0, "First chunk content.".data, some 100⟩,
      ⟨"t".data, 1, "Second chunk content.".data, some 100⟩],
    links := [], url := [], source := .online }

/-- Witness for C6 (amended) at a concrete input. -/
theorem claim_c6_rechunk_witness :
    (∀ c ∈ topicMergeW.body_chunks, estimateTokens c.text ≤ 100) ∧
      chunkTopic topicMergeW 100 none =
        rechunkMergeModel topicMergeW.id 100 (topicMergeW.body_chunks.map (·.text)) :=
  ⟨by decide, claim_c6_rechunk.1 topicMergeW 100 (by decide)⟩

end SynergyMcp
